import Mathlib

/-!
Verification of the viewport/render-region/culling/scheduler/LRU-cache core of
the Minecraft resource-pack editor.  The TypeScript sources
`src/utils/viewport-renderer.ts` and `src/utils/image-cache.ts` are embedded
shallowly: JavaScript numbers become rationals (`ℚ`), `Math.floor`/`Math.ceil`
become `Int.floor`/`Int.ceil` cast back to `ℚ`, the `Map`/array state of the
cache becomes explicit association lists, and JavaScript truthiness of strings
(`""` is falsy) is modelled explicitly.
-/

/-- `ViewportInfo` from `viewport-renderer.ts`: visible sub-rectangle of the
image in image-space units plus the effective scale. -/
structure ViewportInfo where
  x : ℚ
  y : ℚ
  width : ℚ
  height : ℚ
  scale : ℚ
deriving DecidableEq, Repr

/-- `RenderRegion` from `viewport-renderer.ts`: buffered source rectangle and
destination rectangle for the blit. -/
structure RenderRegion where
  sourceX : ℚ
  sourceY : ℚ
  sourceWidth : ℚ
  sourceHeight : ℚ
  destX : ℚ
  destY : ℚ
  destWidth : ℚ
  destHeight : ℚ
deriving DecidableEq, Repr

/-- Embedding of `calculateViewport` (viewport-renderer.ts, lines 20–49). -/
def calculateViewport (containerWidth containerHeight imageWidth imageHeight
    zoom positionX positionY : ℚ) : ViewportInfo :=
  let scale := zoom / 100
  let displayWidth := imageWidth * scale
  let displayHeight := imageHeight * scale
  let imgLeft := (containerWidth - displayWidth) / 2 + positionX
  let imgTop := (containerHeight - displayHeight) / 2 + positionY
  let viewportX := max 0 (-imgLeft / scale)
  let viewportY := max 0 (-imgTop / scale)
  let viewportWidth := min (imageWidth - viewportX) (containerWidth / scale)
  let viewportHeight := min (imageHeight - viewportY) (containerHeight / scale)
  { x := viewportX, y := viewportY, width := viewportWidth,
    height := viewportHeight, scale := scale }

/-- Embedding of `calculateRenderRegion` (viewport-renderer.ts, lines 51–81).
The default `bufferRatio` of `0.2` is passed explicitly as `1/5`. -/
def calculateRenderRegion (viewport : ViewportInfo) (imageWidth imageHeight
    ratio : ℚ) : RenderRegion :=
  let bufferX := viewport.width * ratio
  let bufferY := viewport.height * ratio
  let sourceX := max 0 ((⌊viewport.x - bufferX⌋ : ℤ) : ℚ)
  let sourceY := max 0 ((⌊viewport.y - bufferY⌋ : ℤ) : ℚ)
  let sourceWidth := min (imageWidth - sourceX) ((⌈viewport.width + bufferX * 2⌉ : ℤ) : ℚ)
  let sourceHeight := min (imageHeight - sourceY) ((⌈viewport.height + bufferY * 2⌉ : ℤ) : ℚ)
  { sourceX := sourceX, sourceY := sourceY,
    sourceWidth := sourceWidth, sourceHeight := sourceHeight,
    destX := 0, destY := 0,
    destWidth := sourceWidth, destHeight := sourceHeight }

/-- Embedding of `isPointInViewport` (viewport-renderer.ts, lines 83–96). -/
def isPointInViewport (x y : ℚ) (viewport : ViewportInfo) (margin : ℚ) : Bool :=
  decide (x ≥ viewport.x - margin) &&
  decide (x ≤ viewport.x + viewport.width + margin) &&
  decide (y ≥ viewport.y - margin) &&
  decide (y ≤ viewport.y + viewport.height + margin)

/-- A spatial drawing operation: the culler only reads `x`/`y`; `payload`
stands for the remaining fields of the generic record type `T`. -/
structure SpatialOp where
  x : ℚ
  y : ℚ
  payload : ℕ
deriving DecidableEq, Repr

/-- Embedding of `filterOpsInViewport` (viewport-renderer.ts, lines 98–105):
margin is `toolSize * 2`, membership is tested by `isPointInViewport`. -/
def filterOpsInViewport (ops : List SpatialOp) (viewport : ViewportInfo)
    (toolSize : ℚ) : List SpatialOp :=
  let margin := toolSize * 2
  ops.filter (fun op => isPointInViewport op.x op.y viewport margin)

/-- State of the `ViewportRenderer` class (viewport-renderer.ts, lines
107–153). -/
structure ViewportRenderer where
  lastViewport : Option ViewportInfo
  renderRegion : Option RenderRegion
  needsFullRedraw : Bool
deriving DecidableEq, Repr

/-- A freshly constructed `ViewportRenderer`: field initializers `null`,
`null`, `true`. -/
def ViewportRenderer.init : ViewportRenderer :=
  { lastViewport := none, renderRegion := none, needsFullRedraw := true }

/-- Embedding of `ViewportRenderer.shouldRedraw` (lines 111–132).  The source
returns `true` when `lastViewport` is `null` or `needsFullRedraw` is set;
otherwise it compares the five deltas against the thresholds.  The default
`threshold` of `0.1` is passed explicitly. -/
def ViewportRenderer.shouldRedraw (r : ViewportRenderer)
    (newViewport : ViewportInfo) (threshold : ℚ) : Bool :=
  match r.lastViewport with
  | none => true
  | some last =>
    if r.needsFullRedraw then true
    else
      let deltaX := |newViewport.x - last.x|
      let deltaY := |newViewport.y - last.y|
      let deltaWidth := |newViewport.width - last.width|
      let deltaHeight := |newViewport.height - last.height|
      let deltaScale := |newViewport.scale - last.scale|
      decide (deltaX > newViewport.width * threshold) ||
      decide (deltaY > newViewport.height * threshold) ||
      decide (deltaWidth > newViewport.width * threshold) ||
      decide (deltaHeight > newViewport.height * threshold) ||
      decide (deltaScale > 1/100)

/-- Embedding of `ViewportRenderer.updateViewport` (lines 134–138); the
render region is recomputed with the default buffer ratio. -/
def ViewportRenderer.updateViewport (_r : ViewportRenderer)
    (viewport : ViewportInfo) (imageWidth imageHeight : ℚ) : ViewportRenderer :=
  { lastViewport := some viewport,
    renderRegion := some (calculateRenderRegion viewport imageWidth imageHeight (1/5)),
    needsFullRedraw := false }

/-- Embedding of `ViewportRenderer.getRenderRegion` (lines 140–142). -/
def ViewportRenderer.getRenderRegion (r : ViewportRenderer) : Option RenderRegion :=
  r.renderRegion

/-- Embedding of `ViewportRenderer.markDirty` (lines 144–146). -/
def ViewportRenderer.markDirty (r : ViewportRenderer) : ViewportRenderer :=
  { r with needsFullRedraw := true }

/-- Embedding of `ViewportRenderer.reset` (lines 148–152). -/
def ViewportRenderer.reset (_r : ViewportRenderer) : ViewportRenderer :=
  { lastViewport := none, renderRegion := none, needsFullRedraw := true }

/-! ### The LRU cache (`image-cache.ts`)

A JavaScript `Map<string, string>` is modelled as an association list in
insertion order with unique keys; `accessOrder` is the `string[]` field.
JavaScript truthiness of the guards `if (value)` and `if (oldestKey)` is
modelled by `strTruthy` (the empty string is falsy). -/

/-- JavaScript truthiness of a string: `""` is falsy. -/
def strTruthy (s : String) : Bool :=
  s != ""

/-- `Map.get`: value stored at `key`, or `undefined`. -/
def mapGet (key : String) : List (String × String) → Option String
  | [] => none
  | p :: rest => if p.1 = key then some p.2 else mapGet key rest

/-- `Map.has`. -/
def mapHas (key : String) : List (String × String) → Bool
  | [] => false
  | p :: rest => p.1 = key || mapHas key rest

/-- `Map.set`: overwrite in place if present (keeping insertion order),
append otherwise. -/
def mapSet (key value : String) : List (String × String) → List (String × String)
  | [] => [(key, value)]
  | p :: rest => if p.1 = key then (key, value) :: rest else p :: mapSet key value rest

/-- `Map.delete`: remove the entry with that key (keys are unique). -/
def mapDelete (key : String) : List (String × String) → List (String × String)
  | [] => []
  | p :: rest => if p.1 = key then rest else p :: mapDelete key rest

/-- `accessOrder.indexOf(key)` + `splice(index, 1)`: remove the first
occurrence of `key`, if any. -/
def removeFirst (key : String) : List String → List String
  | [] => []
  | a :: rest => if a = key then rest else a :: removeFirst key rest

/-- State of the `ImageCacheManager` class (image-cache.ts, lines 1–46). -/
structure ImageCacheManager where
  cache : List (String × String)
  maxSize : ℕ
  accessOrder : List String
deriving DecidableEq, Repr

/-- Embedding of the private `updateAccessOrder` (lines 35–41): remove the
key's first occurrence if present, then push it to the tail. -/
def ImageCacheManager.updateAccessOrder (m : ImageCacheManager)
    (key : String) : ImageCacheManager :=
  { m with accessOrder := removeFirst key m.accessOrder ++ [key] }

/-- Embedding of `get` (lines 6–12): look up the value; on a truthy value,
mark the key most-recently-used.  Returns the value and the new state. -/
def ImageCacheManager.get (m : ImageCacheManager) (key : String) :
    Option String × ImageCacheManager :=
  let value := mapGet key m.cache
  match value with
  | some v => if strTruthy v then (value, m.updateAccessOrder key) else (value, m)
  | none => (value, m)

/-- Embedding of `set` (lines 14–24): if at capacity and the key is new,
`shift` the access-order head and, when truthy, delete it from the map; then
store the value and mark the key most-recently-used. -/
def ImageCacheManager.set (m : ImageCacheManager) (key value : String) :
    ImageCacheManager :=
  let m1 :=
    if m.cache.length ≥ m.maxSize ∧ ¬ mapHas key m.cache then
      match m.accessOrder with
      | [] => m
      | oldest :: restOrder =>
        if strTruthy oldest then
          { m with cache := mapDelete oldest m.cache, accessOrder := restOrder }
        else
          { m with accessOrder := restOrder }
    else m
  ImageCacheManager.updateAccessOrder
    { m1 with cache := mapSet key value m1.cache } key

/-- Embedding of `has` (lines 26–28). -/
def ImageCacheManager.has (m : ImageCacheManager) (key : String) : Bool :=
  mapHas key m.cache

/-- Embedding of `clear` (lines 30–33). -/
def ImageCacheManager.clear (m : ImageCacheManager) : ImageCacheManager :=
  { m with cache := [], accessOrder := [] }

/-- Embedding of `getSize` (lines 43–45). -/
def ImageCacheManager.getSize (m : ImageCacheManager) : ℕ :=
  m.cache.length

/-- The module-level instance `export const imageCache = new
ImageCacheManager()`: empty map, `maxSize = 10000`, empty access order. -/
def imageCache : ImageCacheManager :=
  { cache := [], maxSize := 10000, accessOrder := [] }

/-- One public cache operation, for stating invariants over arbitrary call
sequences. -/
inductive CacheOp where
  | get (key : String)
  | set (key value : String)
  | has (key : String)
  | clear
deriving DecidableEq, Repr

/-- Apply one operation to the cache state (`get`/`has` results are
discarded; `has` does not mutate). -/
def CacheOp.apply (m : ImageCacheManager) : CacheOp → ImageCacheManager
  | .get key => (m.get key).2
  | .set key value => m.set key value
  | .has _ => m
  | .clear => m.clear

/-- Run a sequence of cache operations from a starting state. -/
def runOps (m : ImageCacheManager) (ops : List CacheOp) : ImageCacheManager :=
  ops.foldl CacheOp.apply m

/-- The keys of the association list, in insertion order. -/
def mapKeys (c : List (String × String)) : List String :=
  c.map Prod.fst

/-- `i`-th key of an injective, always-nonempty witness family: the string
of `i + 1` letters `a`. -/
def repKey (i : ℕ) : String :=
  String.mk (List.replicate (i + 1) 'a')

/-- Witness key family whose first key is the (falsy) empty string:
`padKey 0 = ""`, and `padKey i` is the string of `i` letters `a`. -/
def padKey (i : ℕ) : String :=
  String.mk (List.replicate i 'a')

/-- Concrete valid viewport used by the C2 witness (width and height 20, so
the default buffer `20 * 0.2 = 4` is at least one pixel). -/
def bufferedVp : ViewportInfo :=
  { x := 10, y := 10, width := 20, height := 20, scale := 1 }

/-- Concrete valid viewport used by the C2 counterexample: width and height
`1/2`, so the default buffer is `1/10` of a pixel and flooring the lower
bound can lose more than the buffer covers. -/
def thinVp : ViewportInfo :=
  { x := 299/100, y := 0, width := 1/2, height := 1/2, scale := 1 }

/-- The cache's internal consistency invariant: capacity 10000 from the
constructor, no more live entries than the capacity, unique map keys, the
access-order list holding exactly the live keys, each exactly once, and (in
the states reachable with nonempty `set` keys) no falsy key in the order
list. -/
def CacheInv (m : ImageCacheManager) : Prop :=
  m.maxSize = 10000 ∧
  m.cache.length ≤ m.maxSize ∧
  (mapKeys m.cache).Nodup ∧
  (∀ k, k ∈ mapKeys m.cache ↔ k ∈ m.accessOrder) ∧
  m.accessOrder.Nodup ∧
  (∀ k ∈ m.accessOrder, k ≠ "")

/-- The cache state whose map holds `(kf i, vf i)` for `i < n` in insertion
order and whose access order is `kf 0, …, kf (n-1)`: the state reached by
`n ≤ maxSize` fresh inserts. -/
def filledState (kf vf : ℕ → String) (n : ℕ) : ImageCacheManager :=
  { cache := (List.range n).map fun i => (kf i, vf i),
    maxSize := 10000,
    accessOrder := (List.range n).map kf }

/-- The cache state after filling with `kf 0 .. kf 10000`: the first key has
been evicted, the remaining 10000 keys sit in insertion order. -/
def evictedState (kf vf : ℕ → String) : ImageCacheManager :=
  { cache := ((List.range 9999).map fun i => (kf (i + 1), vf (i + 1))) ++
      [(kf 10000, vf 10000)],
    maxSize := 10000,
    accessOrder := ((List.range 9999).map fun i => kf (i + 1)) ++ [kf 10000] }

/-- State after inserting keys `kf 0 .. kf 10000` (with values `vf i`) in
order into the fresh cache: one past capacity, so one eviction. -/
def lruPhase1 (kf vf : ℕ → String) : ImageCacheManager :=
  runOps imageCache ((List.range 10001).map fun i => CacheOp.set (kf i) (vf i))

/-- Continuation of `lruPhase1`: `get (kf 1)`, then insert `kf 10001`,
forcing a second eviction. -/
def lruPhase2 (kf vf : ℕ → String) : ImageCacheManager :=
  (((lruPhase1 kf vf).get (kf 1)).2).set (kf 10001) (vf 10001)

/-- Viewport for the C6 witness: the scheduler's last accepted viewport. -/
def panVpOld : ViewportInfo :=
  { x := 0, y := 0, width := 10, height := 10, scale := 1 }

/-- Viewport for the C6 witness: differs from `panVpOld` only by a small pan
in `x`. -/
def panVpNew : ViewportInfo :=
  { x := 1/2, y := 0, width := 10, height := 10, scale := 1 }

/-- Viewports for the C6 counterexample: identical except for a small `x`
pan, but with a negative height, which flips the `deltaY`/`deltaHeight`
threshold comparisons. -/
def negHVpOld : ViewportInfo :=
  { x := 0, y := 0, width := 10, height := -1, scale := 1 }

/-- See `negHVpOld`. -/
def negHVpNew : ViewportInfo :=
  { x := 1/2, y := 0, width := 10, height := -1, scale := 1 }

/-- C1: for positive container/image dimensions and zoom, the viewport lies
inside the image: `x, y ≥ 0`, `x + width ≤ imageW`, `y + height ≤ imageH`. -/
theorem calculateViewport_bounds (cw ch iw ih zoom px py : ℚ)
    (hcw : 0 < cw) (hch : 0 < ch) (hiw : 0 < iw) (hih : 0 < ih)
    (hz : 0 < zoom) :
    0 ≤ (calculateViewport cw ch iw ih zoom px py).x ∧
    0 ≤ (calculateViewport cw ch iw ih zoom px py).y ∧
    (calculateViewport cw ch iw ih zoom px py).x +
      (calculateViewport cw ch iw ih zoom px py).width ≤ iw ∧
    (calculateViewport cw ch iw ih zoom px py).y +
      (calculateViewport cw ch iw ih zoom px py).height ≤ ih := by
  refine ⟨le_max_left _ _, le_max_left _ _, ?_, ?_⟩
  · have h := min_le_left (iw - max 0 (-((cw - iw * (zoom / 100)) / 2 + px) / (zoom / 100)))
      (cw / (zoom / 100))
    simp only [calculateViewport]
    linarith
  · have h := min_le_left (ih - max 0 (-((ch - ih * (zoom / 100)) / 2 + py) / (zoom / 100)))
      (ch / (zoom / 100))
    simp only [calculateViewport]
    linarith

theorem calculateViewport_bounds_witness :
    (0:ℚ) < 800 ∧ (0:ℚ) < 600 ∧ (0:ℚ) < 4096 ∧ (0:ℚ) < 100 ∧
    (0 ≤ (calculateViewport 800 600 4096 4096 100 0 0).x ∧
     0 ≤ (calculateViewport 800 600 4096 4096 100 0 0).y ∧
     (calculateViewport 800 600 4096 4096 100 0 0).x +
       (calculateViewport 800 600 4096 4096 100 0 0).width ≤ 4096 ∧
     (calculateViewport 800 600 4096 4096 100 0 0).y +
       (calculateViewport 800 600 4096 4096 100 0 0).height ≤ 4096) :=
  ⟨by norm_num, by norm_num, by norm_num, by norm_num,
    calculateViewport_bounds 800 600 4096 4096 100 0 0
      (by norm_num) (by norm_num) (by norm_num) (by norm_num) (by norm_num)⟩

/-- C3 counterexample: with all container/image dimensions and the zoom
positive, a far-left pan makes `calculateViewport` return a negative width
(`min (imageW - viewportX) (containerW / scale)` with `viewportX > imageW`),
refuting `width ≥ 0`. -/
theorem calculateViewport_width_neg_cex :
    (calculateViewport 100 100 100 100 100 (-200) (-200)).width = -100 := by
  norm_num [calculateViewport, max_def, min_def]

/-- C3 amended: under the claim's hypotheses, `scale > 0` always holds, and
`width ≥ 0` (resp. `height ≥ 0`) holds whenever the computed viewport origin
does not lie past the image extent (`x ≤ imageW`, resp. `y ≤ imageH`). -/
theorem calculateViewport_size_amended (cw ch iw ih zoom px py : ℚ)
    (hcw : 0 < cw) (hch : 0 < ch) (hiw : 0 < iw) (hih : 0 < ih)
    (hz : 0 < zoom) :
    0 < (calculateViewport cw ch iw ih zoom px py).scale ∧
    ((calculateViewport cw ch iw ih zoom px py).x ≤ iw →
      0 ≤ (calculateViewport cw ch iw ih zoom px py).width) ∧
    ((calculateViewport cw ch iw ih zoom px py).y ≤ ih →
      0 ≤ (calculateViewport cw ch iw ih zoom px py).height) := by
  have hs : (0:ℚ) < zoom / 100 := by positivity
  refine ⟨hs, fun hx => ?_, fun hy => ?_⟩
  · have h1 : 0 ≤ iw - (calculateViewport cw ch iw ih zoom px py).x := by linarith
    have h2 : 0 ≤ cw / (zoom / 100) := le_of_lt (by positivity)
    simp only [calculateViewport] at h1 ⊢
    exact le_min h1 h2
  · have h1 : 0 ≤ ih - (calculateViewport cw ch iw ih zoom px py).y := by linarith
    have h2 : 0 ≤ ch / (zoom / 100) := le_of_lt (by positivity)
    simp only [calculateViewport] at h1 ⊢
    exact le_min h1 h2

theorem calculateViewport_size_amended_witness :
    (0:ℚ) < 800 ∧ (0:ℚ) < 100 ∧
    (0 < (calculateViewport 800 600 4096 4096 100 0 0).scale ∧
     ((calculateViewport 800 600 4096 4096 100 0 0).x ≤ 4096 →
       0 ≤ (calculateViewport 800 600 4096 4096 100 0 0).width) ∧
     ((calculateViewport 800 600 4096 4096 100 0 0).y ≤ 4096 →
       0 ≤ (calculateViewport 800 600 4096 4096 100 0 0).height)) :=
  ⟨by norm_num, by norm_num,
    calculateViewport_size_amended 800 600 4096 4096 100 0 0
      (by norm_num) (by norm_num) (by norm_num) (by norm_num) (by norm_num)⟩

/-- C9 counterexample: on the spec's own scenario inputs, `calculateViewport`
does not return the claimed viewport `{x:0, y:0, width:800, height:600,
scale:1}` (a 4096-pixel image centered in an 800×600 container is visible from
image-space offset 1648/1748, not 0). -/
theorem scenario_viewport_cex :
    calculateViewport 800 600 4096 4096 100 0 0 ≠
      { x := 0, y := 0, width := 800, height := 600, scale := 1 } := by
  norm_num [calculateViewport, max_def, min_def]

/-- C9 amended: the scenario's actual values. `calculateViewport(800, 600,
4096, 4096, 100, 0, 0)` returns `{x:1648, y:1748, width:800, height:600,
scale:1}`, and `calculateRenderRegion` on that viewport with the default
buffer ratio returns source rectangle `{1488, 1628, 1120, 840}`. -/
theorem scenario_viewport_actual :
    calculateViewport 800 600 4096 4096 100 0 0 =
      { x := 1648, y := 1748, width := 800, height := 600, scale := 1 } ∧
    calculateRenderRegion
      { x := 1648, y := 1748, width := 800, height := 600, scale := 1 }
      4096 4096 (1/5) =
      { sourceX := 1488, sourceY := 1628, sourceWidth := 1120,
        sourceHeight := 840, destX := 0, destY := 0,
        destWidth := 1120, destHeight := 840 } := by
  constructor
  · norm_num [calculateViewport, max_def, min_def]
  · norm_num [calculateRenderRegion, max_def, min_def]

/-- C10 counterexample: a negative zoom does not yield a zero-size viewport:
`calculateViewport(800, 600, 100, 100, -100, 0, 0)` has `width = -800`,
refuting `width = 0 ∧ height = 0` for degenerate inputs. -/
theorem degenerate_zoom_cex :
    ¬ ((calculateViewport 800 600 100 100 (-100) 0 0).width = 0 ∧
       (calculateViewport 800 600 100 100 (-100) 0 0).height = 0) := by
  norm_num [calculateViewport, max_def, min_def]

/-- C10 amended: `calculateViewport` is total (the embedding is a plain
function), and for a positive zoom a zero-or-negative image or container
dimension on an axis yields a non-positive extent on that axis (`width ≤ 0`
resp. `height ≤ 0`), so the downstream blit is a no-op; for zero or negative
zoom the result need not be degenerate. -/
theorem calculateViewport_degenerate_axis (cw ch iw ih zoom px py : ℚ)
    (hz : 0 < zoom) :
    ((iw ≤ 0 ∨ cw ≤ 0) → (calculateViewport cw ch iw ih zoom px py).width ≤ 0) ∧
    ((ih ≤ 0 ∨ ch ≤ 0) → (calculateViewport cw ch iw ih zoom px py).height ≤ 0) := by
  have hs : (0:ℚ) < zoom / 100 := by positivity
  constructor
  · rintro (hiw | hcw)
    · have hx : 0 ≤ (calculateViewport cw ch iw ih zoom px py).x := le_max_left _ _
      have h1 : iw - (calculateViewport cw ch iw ih zoom px py).x ≤ 0 := by linarith
      simp only [calculateViewport] at h1 ⊢
      exact le_trans (min_le_left _ _) h1
    · have h2 : cw / (zoom / 100) ≤ 0 := div_nonpos_of_nonpos_of_nonneg hcw (le_of_lt hs)
      simp only [calculateViewport]
      exact le_trans (min_le_right _ _) h2
  · rintro (hih | hch)
    · have hy : 0 ≤ (calculateViewport cw ch iw ih zoom px py).y := le_max_left _ _
      have h1 : ih - (calculateViewport cw ch iw ih zoom px py).y ≤ 0 := by linarith
      simp only [calculateViewport] at h1 ⊢
      exact le_trans (min_le_left _ _) h1
    · have h2 : ch / (zoom / 100) ≤ 0 := div_nonpos_of_nonpos_of_nonneg hch (le_of_lt hs)
      simp only [calculateViewport]
      exact le_trans (min_le_right _ _) h2

theorem calculateViewport_degenerate_axis_witness :
    (0:ℚ) < 100 ∧
    ((((-50):ℚ) ≤ 0 ∨ (800:ℚ) ≤ 0) →
      (calculateViewport 800 600 (-50) (-50) 100 0 0).width ≤ 0) ∧
    ((((-50):ℚ) ≤ 0 ∨ (600:ℚ) ≤ 0) →
      (calculateViewport 800 600 (-50) (-50) 100 0 0).height ≤ 0) :=
  ⟨by norm_num,
    (calculateViewport_degenerate_axis 800 600 (-50) (-50) 100 0 0 (by norm_num)).1,
    (calculateViewport_degenerate_axis 800 600 (-50) (-50) 100 0 0 (by norm_num)).2⟩

/-- One axis of the region expansion: when the buffer `w * (1/5)` is at least
one pixel, the expanded interval contains every point of the (closed) viewport
interval that lies inside `[0, image)`. -/
theorem expandAxis_mem (x w pt image : ℚ) (h5 : 5 ≤ w)
    (h1 : x ≤ pt) (h2 : pt ≤ x + w) (h3 : 0 ≤ pt) (h4 : pt < image) :
    max 0 ((⌊x - w * (1/5)⌋ : ℤ) : ℚ) ≤ pt ∧
    pt < max 0 ((⌊x - w * (1/5)⌋ : ℤ) : ℚ) +
      min (image - max 0 ((⌊x - w * (1/5)⌋ : ℤ) : ℚ))
        ((⌈w + w * (1/5) * 2⌉ : ℤ) : ℚ) := by
  have hFle : ((⌊x - w * (1/5)⌋ : ℤ) : ℚ) ≤ x - w * (1/5) := Int.floor_le _
  have hFgt : x - w * (1/5) - 1 < ((⌊x - w * (1/5)⌋ : ℤ) : ℚ) := Int.sub_one_lt_floor _
  have hCge : w + w * (1/5) * 2 ≤ ((⌈w + w * (1/5) * 2⌉ : ℤ) : ℚ) := Int.le_ceil _
  have hm1 : ((⌊x - w * (1/5)⌋ : ℤ) : ℚ) ≤ max 0 ((⌊x - w * (1/5)⌋ : ℤ) : ℚ) :=
    le_max_right _ _
  constructor
  · exact max_le h3 (by linarith)
  · have hA : pt < max 0 ((⌊x - w * (1/5)⌋ : ℤ) : ℚ) +
        (image - max 0 ((⌊x - w * (1/5)⌋ : ℤ) : ℚ)) := by linarith
    have hB : pt < max 0 ((⌊x - w * (1/5)⌋ : ℤ) : ℚ) +
        ((⌈w + w * (1/5) * 2⌉ : ℤ) : ℚ) := by linarith
    have hmin := lt_min hA hB
    rwa [min_add_add_left] at hmin

/-- C2 counterexample: for the valid viewport `thinVp` (x = 2.99, width =
1/2) with the default buffer ratio, the point `(3.2, 0.2)` lies in the
viewport intersected with `[0,100) × [0,100)` but outside the returned source
rectangle (`sourceX = 2`, `sourceWidth = 1`), so `calculateRenderRegion`
under-renders. -/
theorem calculateRenderRegion_under_render_cex :
    (0 ≤ thinVp.x ∧ 0 ≤ thinVp.y ∧ 0 ≤ thinVp.width ∧ 0 ≤ thinVp.height ∧
     thinVp.x + thinVp.width ≤ 100 ∧ thinVp.y + thinVp.height ≤ 100 ∧
     0 < thinVp.scale) ∧
    (thinVp.x ≤ 16/5 ∧ (16/5 : ℚ) ≤ thinVp.x + thinVp.width ∧
     (0:ℚ) ≤ 16/5 ∧ (16/5 : ℚ) < 100 ∧
     thinVp.y ≤ 1/5 ∧ (1/5 : ℚ) ≤ thinVp.y + thinVp.height ∧
     (0:ℚ) ≤ 1/5 ∧ (1/5 : ℚ) < 100) ∧
    ¬ ((calculateRenderRegion thinVp 100 100 (1/5)).sourceX ≤ 16/5 ∧
       (16/5 : ℚ) ≤ (calculateRenderRegion thinVp 100 100 (1/5)).sourceX +
         (calculateRenderRegion thinVp 100 100 (1/5)).sourceWidth ∧
       (calculateRenderRegion thinVp 100 100 (1/5)).sourceY ≤ 1/5 ∧
       (1/5 : ℚ) ≤ (calculateRenderRegion thinVp 100 100 (1/5)).sourceY +
         (calculateRenderRegion thinVp 100 100 (1/5)).sourceHeight) := by
  have h1 : ((⌈thinVp.width + thinVp.width * (1/5) * 2⌉ : ℤ) : ℚ) = 1 := by
    norm_num [thinVp, Int.ceil_eq_iff]
  have h2 : ((⌈thinVp.height + thinVp.height * (1/5) * 2⌉ : ℤ) : ℚ) = 1 := by
    norm_num [thinVp, Int.ceil_eq_iff]
  have h3 : ((⌊thinVp.x - thinVp.width * (1/5)⌋ : ℤ) : ℚ) = 2 := by
    norm_num [thinVp]
  have h4 : ((⌊thinVp.y - thinVp.height * (1/5)⌋ : ℤ) : ℚ) = -1 := by
    norm_num [thinVp]
  have hreg : calculateRenderRegion thinVp 100 100 (1/5) =
      { sourceX := 2, sourceY := 0, sourceWidth := 1, sourceHeight := 1,
        destX := 0, destY := 0, destWidth := 1, destHeight := 1 } := by
    simp only [calculateRenderRegion, h1, h2, h3, h4]
    norm_num [max_def, min_def]
  rw [hreg]
  norm_num [thinVp]

/-- C2 amended: for every valid viewport, the source rectangle returned with
the default buffer ratio lies within the image bounds; whenever additionally
the width and height are at least 5 (so the default buffer `0.2 * extent` is
at least one pixel per axis), it also contains every point of the viewport
intersected with `[0, imageW) × [0, imageH)` (never under-renders). -/
theorem calculateRenderRegion_amended (v : ViewportInfo) (iw ih : ℚ)
    (hx : 0 ≤ v.x) (hy : 0 ≤ v.y) (hw : 0 ≤ v.width) (hh : 0 ≤ v.height)
    (hxw : v.x + v.width ≤ iw) (hyh : v.y + v.height ≤ ih) (hsc : 0 < v.scale) :
    (0 ≤ (calculateRenderRegion v iw ih (1/5)).sourceX ∧
     0 ≤ (calculateRenderRegion v iw ih (1/5)).sourceY ∧
     (calculateRenderRegion v iw ih (1/5)).sourceX +
       (calculateRenderRegion v iw ih (1/5)).sourceWidth ≤ iw ∧
     (calculateRenderRegion v iw ih (1/5)).sourceY +
       (calculateRenderRegion v iw ih (1/5)).sourceHeight ≤ ih) ∧
    (5 ≤ v.width → 5 ≤ v.height →
      ∀ px py : ℚ, v.x ≤ px → px ≤ v.x + v.width → 0 ≤ px → px < iw →
        v.y ≤ py → py ≤ v.y + v.height → 0 ≤ py → py < ih →
        (calculateRenderRegion v iw ih (1/5)).sourceX ≤ px ∧
        px < (calculateRenderRegion v iw ih (1/5)).sourceX +
          (calculateRenderRegion v iw ih (1/5)).sourceWidth ∧
        (calculateRenderRegion v iw ih (1/5)).sourceY ≤ py ∧
        py < (calculateRenderRegion v iw ih (1/5)).sourceY +
          (calculateRenderRegion v iw ih (1/5)).sourceHeight) := by
  have hbound : ∀ image m c : ℚ, m + min (image - m) c ≤ image := by
    intro image m c
    have := min_le_left (image - m) c
    linarith
  constructor
  · simp only [calculateRenderRegion]
    exact ⟨le_max_left _ _, le_max_left _ _, hbound iw _ _, hbound ih _ _⟩
  · intro h5w h5h px py h1 h2 h3 h4 h5 h6 h7 h8
    have hxax := expandAxis_mem v.x v.width px iw h5w h1 h2 h3 h4
    have hyax := expandAxis_mem v.y v.height py ih h5h h5 h6 h7 h8
    simp only [calculateRenderRegion]
    exact ⟨hxax.1, hxax.2, hyax.1, hyax.2⟩

theorem calculateRenderRegion_amended_witness :
    (0 ≤ bufferedVp.x ∧ 0 ≤ bufferedVp.y ∧ 0 ≤ bufferedVp.width ∧
     0 ≤ bufferedVp.height ∧ bufferedVp.x + bufferedVp.width ≤ 100 ∧
     bufferedVp.y + bufferedVp.height ≤ 100 ∧ 0 < bufferedVp.scale) ∧
    ((0 ≤ (calculateRenderRegion bufferedVp 100 100 (1/5)).sourceX ∧
      0 ≤ (calculateRenderRegion bufferedVp 100 100 (1/5)).sourceY ∧
      (calculateRenderRegion bufferedVp 100 100 (1/5)).sourceX +
        (calculateRenderRegion bufferedVp 100 100 (1/5)).sourceWidth ≤ 100 ∧
      (calculateRenderRegion bufferedVp 100 100 (1/5)).sourceY +
        (calculateRenderRegion bufferedVp 100 100 (1/5)).sourceHeight ≤ 100) ∧
     (5 ≤ bufferedVp.width → 5 ≤ bufferedVp.height →
      ∀ px py : ℚ, bufferedVp.x ≤ px → px ≤ bufferedVp.x + bufferedVp.width →
        0 ≤ px → px < 100 →
        bufferedVp.y ≤ py → py ≤ bufferedVp.y + bufferedVp.height →
        0 ≤ py → py < 100 →
        (calculateRenderRegion bufferedVp 100 100 (1/5)).sourceX ≤ px ∧
        px < (calculateRenderRegion bufferedVp 100 100 (1/5)).sourceX +
          (calculateRenderRegion bufferedVp 100 100 (1/5)).sourceWidth ∧
        (calculateRenderRegion bufferedVp 100 100 (1/5)).sourceY ≤ py ∧
        py < (calculateRenderRegion bufferedVp 100 100 (1/5)).sourceY +
          (calculateRenderRegion bufferedVp 100 100 (1/5)).sourceHeight)) :=
  ⟨by norm_num [bufferedVp],
    calculateRenderRegion_amended bufferedVp 100 100
      (by norm_num [bufferedVp]) (by norm_num [bufferedVp])
      (by norm_num [bufferedVp]) (by norm_num [bufferedVp])
      (by norm_num [bufferedVp]) (by norm_num [bufferedVp])
      (by norm_num [bufferedVp])⟩

/-- C7: `shouldRedraw` returns `true` for every viewport and threshold on a
freshly constructed scheduler, after `reset`, and immediately after
`markDirty`, regardless of the stored viewport. -/
theorem shouldRedraw_uninit_or_dirty :
    (∀ (v : ViewportInfo) (t : ℚ),
      ViewportRenderer.init.shouldRedraw v t = true) ∧
    (∀ (r : ViewportRenderer) (v : ViewportInfo) (t : ℚ),
      r.reset.shouldRedraw v t = true) ∧
    (∀ (r : ViewportRenderer) (v : ViewportInfo) (t : ℚ),
      r.markDirty.shouldRedraw v t = true) := by
  refine ⟨fun v t => rfl, fun r v t => rfl, fun r v t => ?_⟩
  cases hr : r.lastViewport <;>
    simp [ViewportRenderer.shouldRedraw, ViewportRenderer.markDirty, hr]

/-- C6 counterexample: after one `updateViewport` with `negHVpOld`, the new
viewport `negHVpNew` differs only by `Δx = 1/2 < width * threshold = 1`, yet
`shouldRedraw` returns `true`: the height is negative, so
`deltaY > height * threshold` compares `0 > -1/10` and fires. -/
theorem shouldRedraw_small_dx_cex :
    (negHVpNew.y = negHVpOld.y ∧ negHVpNew.width = negHVpOld.width ∧
     negHVpNew.height = negHVpOld.height ∧ negHVpNew.scale = negHVpOld.scale ∧
     |negHVpNew.x - negHVpOld.x| < negHVpNew.width * (1/10)) ∧
    (ViewportRenderer.init.updateViewport negHVpOld 100 100).shouldRedraw
      negHVpNew (1/10) = true := by
  constructor
  · norm_num [negHVpOld, negHVpNew, abs_lt]
  · norm_num [ViewportRenderer.updateViewport, ViewportRenderer.shouldRedraw,
      negHVpOld, negHVpNew, Bool.or_eq_true, decide_eq_true_eq, abs_lt]

/-- C6 amended: after exactly one `updateViewport` with `v`, a new viewport
differing from `v` only in `x` with `|Δx| < width * t` makes `shouldRedraw`
return `false`, provided additionally `height * t ≥ 0` (for a negative
`height * t` the zero `deltaY`/`deltaHeight` exceed the threshold and force a
redraw). -/
theorem shouldRedraw_small_dx_amended (v vn : ViewportInfo) (iw ih t : ℚ)
    (hy : vn.y = v.y) (hw : vn.width = v.width) (hh : vn.height = v.height)
    (hs : vn.scale = v.scale)
    (hx : |vn.x - v.x| < vn.width * t) (hht : 0 ≤ vn.height * t) :
    (ViewportRenderer.init.updateViewport v iw ih).shouldRedraw vn t = false := by
  have hx' : |vn.x - v.x| < v.width * t := by rw [hw] at hx; exact hx
  have hht' : (0:ℚ) ≤ v.height * t := by rw [hh] at hht; exact hht
  have h0 : (0:ℚ) ≤ v.width * t := le_trans (abs_nonneg _) (le_of_lt hx')
  simp only [ViewportRenderer.updateViewport, ViewportRenderer.shouldRedraw,
    hy, hw, hh, hs, sub_self, abs_zero, Bool.or_eq_false_iff,
    decide_eq_false_iff_not, not_lt]
  norm_num
  exact ⟨⟨⟨le_of_lt hx', hht'⟩, h0⟩, hht'⟩

theorem shouldRedraw_small_dx_amended_witness :
    (panVpNew.y = panVpOld.y ∧ panVpNew.width = panVpOld.width ∧
     panVpNew.height = panVpOld.height ∧ panVpNew.scale = panVpOld.scale ∧
     |panVpNew.x - panVpOld.x| < panVpNew.width * (1/10) ∧
     0 ≤ panVpNew.height * (1/10)) ∧
    (ViewportRenderer.init.updateViewport panVpOld 100 100).shouldRedraw
      panVpNew (1/10) = false :=
  ⟨by norm_num [panVpOld, panVpNew, abs_lt],
    shouldRedraw_small_dx_amended panVpOld panVpNew 100 100 (1/10)
      (by norm_num [panVpOld, panVpNew]) (by norm_num [panVpOld, panVpNew])
      (by norm_num [panVpOld, panVpNew]) (by norm_num [panVpOld, panVpNew])
      (by norm_num [panVpOld, panVpNew, abs_lt]) (by norm_num [panVpOld, panVpNew])⟩

/-- The membership test of the culler, pointwise: `isPointInViewport` with
margin `m * 2` is the claim's closed box test with margin `2 * m`. -/
theorem isPointInViewport_eq_box (a b : ℚ) (vp : ViewportInfo) (m : ℚ) :
    isPointInViewport a b vp (m * 2) =
      decide ((vp.x - 2*m ≤ a ∧ a ≤ vp.x + vp.width + 2*m) ∧
        (vp.y - 2*m ≤ b ∧ b ≤ vp.y + vp.height + 2*m)) := by
  rw [Bool.eq_iff_iff]
  simp only [isPointInViewport, Bool.and_eq_true, decide_eq_true_eq, ge_iff_le]
  constructor
  · rintro ⟨⟨⟨h1, h2⟩, h3⟩, h4⟩
    exact ⟨⟨by linarith, by linarith⟩, by linarith, by linarith⟩
  · rintro ⟨⟨h1, h2⟩, h3, h4⟩
    exact ⟨⟨⟨by linarith, by linarith⟩, by linarith⟩, by linarith⟩

/-- C8: `filterOpsInViewport` returns exactly the operations whose point lies
in the closed box `[x - 2m, x + width + 2m] × [y - 2m, y + height + 2m]`, in
their original relative order (a sublist); the empty input yields the empty
output, and margin `0` yields the exact viewport membership test. -/
theorem filterOpsInViewport_exact :
    ∀ (ops : List SpatialOp) (vp : ViewportInfo) (m : ℚ),
      filterOpsInViewport ops vp m =
        ops.filter (fun op =>
          decide ((vp.x - 2*m ≤ op.x ∧ op.x ≤ vp.x + vp.width + 2*m) ∧
            (vp.y - 2*m ≤ op.y ∧ op.y ≤ vp.y + vp.height + 2*m))) ∧
      filterOpsInViewport [] vp m = [] ∧
      (filterOpsInViewport ops vp m).Sublist ops ∧
      filterOpsInViewport ops vp 0 =
        ops.filter (fun op => isPointInViewport op.x op.y vp 0) := by
  intro ops vp m
  refine ⟨?_, rfl, ?_, ?_⟩
  · simp only [filterOpsInViewport]
    exact List.filter_congr fun op _ => isPointInViewport_eq_box op.x op.y vp m
  · exact List.filter_sublist ops
  · simp only [filterOpsInViewport]
    exact List.filter_congr fun op _ => by norm_num

theorem mapHas_eq_true_iff (k : String) (c : List (String × String)) :
    mapHas k c = true ↔ k ∈ mapKeys c := by
  induction c with
  | nil => simp [mapHas, mapKeys]
  | cons p rest ih =>
    simp only [mapHas, mapKeys, List.map_cons, List.mem_cons, Bool.or_eq_true,
      decide_eq_true_eq, ih]
    constructor
    · rintro (h | h)
      · exact Or.inl h.symm
      · exact Or.inr h
    · rintro (h | h)
      · exact Or.inl h.symm
      · exact Or.inr h

theorem mapHas_eq_false_iff (k : String) (c : List (String × String)) :
    mapHas k c = false ↔ k ∉ mapKeys c := by
  rw [← Bool.not_eq_true, not_iff_not, mapHas_eq_true_iff]

theorem mapGet_eq_none_of_not_mem (k : String) (c : List (String × String))
    (h : k ∉ mapKeys c) : mapGet k c = none := by
  induction c with
  | nil => rfl
  | cons p rest ih =>
    simp only [mapKeys, List.map_cons, List.mem_cons, not_or] at h
    simp only [mapGet]
    rw [if_neg fun he => h.1 he.symm]
    exact ih h.2

theorem mapKeys_append (c₁ c₂ : List (String × String)) :
    mapKeys (c₁ ++ c₂) = mapKeys c₁ ++ mapKeys c₂ :=
  List.map_append _ _ _

theorem mapSet_of_not_mem (k v : String) (c : List (String × String))
    (h : k ∉ mapKeys c) : mapSet k v c = c ++ [(k, v)] := by
  induction c with
  | nil => rfl
  | cons p rest ih =>
    simp only [mapKeys, List.map_cons, List.mem_cons, not_or] at h
    simp only [mapSet]
    rw [if_neg fun he => h.1 he.symm]
    rw [ih (by simpa [mapKeys] using h.2), List.cons_append]

theorem mapKeys_mapSet_of_has (k v : String) (c : List (String × String))
    (h : mapHas k c = true) : mapKeys (mapSet k v c) = mapKeys c := by
  induction c with
  | nil => simp [mapHas] at h
  | cons p rest ih =>
    simp only [mapHas, Bool.or_eq_true, decide_eq_true_eq] at h
    by_cases hp : p.1 = k
    · simp [mapSet, hp, mapKeys]
    · simp only [mapSet, if_neg hp, mapKeys, List.map_cons]
      have h2 := ih (h.resolve_left hp)
      simp only [mapKeys] at h2
      rw [h2]

theorem length_mapSet_of_has (k v : String) (c : List (String × String))
    (h : mapHas k c = true) : (mapSet k v c).length = c.length := by
  have := congrArg List.length (mapKeys_mapSet_of_has k v c h)
  simpa [mapKeys] using this

theorem mapKeys_mapDelete (k : String) (c : List (String × String)) :
    mapKeys (mapDelete k c) = (mapKeys c).erase k := by
  induction c with
  | nil => rfl
  | cons p rest ih =>
    by_cases hp : p.1 = k
    · simp [mapDelete, hp, mapKeys, List.erase_cons_head]
    · simp only [mapDelete, if_neg hp, mapKeys, List.map_cons]
      rw [List.erase_cons_tail (by simp [hp])]
      have h2 := ih
      simp only [mapKeys] at h2
      rw [h2]

theorem removeFirst_eq_erase (k : String) (l : List String) :
    removeFirst k l = l.erase k := by
  induction l with
  | nil => rfl
  | cons a rest ih =>
    by_cases ha : a = k
    · simp [removeFirst, ha, List.erase_cons_head]
    · simp only [removeFirst, if_neg ha, ih]
      rw [List.erase_cons_tail]
      simp [ha]

theorem length_mapKeys (c : List (String × String)) :
    (mapKeys c).length = c.length := by
  simp [mapKeys]

theorem updateAccessOrder_eq (m : ImageCacheManager) (k : String) :
    m.updateAccessOrder k =
      { m with accessOrder := m.accessOrder.erase k ++ [k] } := by
  simp only [ImageCacheManager.updateAccessOrder, removeFirst_eq_erase]

theorem set_no_evict_eq (m : ImageCacheManager) (k v : String)
    (hcond : m.cache.length < m.maxSize ∨ mapHas k m.cache = true) :
    m.set k v =
      { m with cache := mapSet k v m.cache,
               accessOrder := m.accessOrder.erase k ++ [k] } := by
  have hcond2 : ¬ (m.cache.length ≥ m.maxSize ∧ ¬ mapHas k m.cache = true) := by
    rcases hcond with h | h
    · rintro ⟨h1, _⟩
      omega
    · rintro ⟨_, h2⟩
      exact h2 h
  simp only [ImageCacheManager.set]
  rw [if_neg hcond2]
  simp only [ImageCacheManager.updateAccessOrder, removeFirst_eq_erase]

theorem set_evict_eq (m : ImageCacheManager) (k v oldest : String)
    (restOrder : List String)
    (horder : m.accessOrder = oldest :: restOrder)
    (hlen : m.maxSize ≤ m.cache.length) (hk : k ∉ mapKeys m.cache)
    (hold : oldest ≠ "") :
    m.set k v =
      { m with cache := mapSet k v (mapDelete oldest m.cache),
               accessOrder := restOrder.erase k ++ [k] } := by
  have hcond : m.cache.length ≥ m.maxSize ∧ ¬ mapHas k m.cache = true :=
    ⟨hlen, fun hc => hk ((mapHas_eq_true_iff k m.cache).1 hc)⟩
  have htru : strTruthy oldest = true := by simp [strTruthy, hold]
  simp only [ImageCacheManager.set, horder]
  rw [if_pos hcond]
  simp only [htru, if_true, ImageCacheManager.updateAccessOrder,
    removeFirst_eq_erase]

theorem set_evict_falsy_eq (m : ImageCacheManager) (k v : String)
    (restOrder : List String)
    (horder : m.accessOrder = "" :: restOrder)
    (hlen : m.maxSize ≤ m.cache.length) (hk : k ∉ mapKeys m.cache) :
    m.set k v =
      { m with cache := mapSet k v m.cache,
               accessOrder := restOrder.erase k ++ [k] } := by
  have hcond : m.cache.length ≥ m.maxSize ∧ ¬ mapHas k m.cache = true :=
    ⟨hlen, fun hc => hk ((mapHas_eq_true_iff k m.cache).1 hc)⟩
  simp only [ImageCacheManager.set, horder]
  rw [if_pos hcond]
  simp only [strTruthy, bne_self_eq_false, Bool.false_eq_true, if_false,
    ImageCacheManager.updateAccessOrder, removeFirst_eq_erase]

theorem get_hit_refresh (m : ImageCacheManager) (k v : String)
    (hget : mapGet k m.cache = some v) (hv : v ≠ "") :
    (m.get k).2 = { m with accessOrder := m.accessOrder.erase k ++ [k] } := by
  have htru : strTruthy v = true := by simp [strTruthy, hv]
  simp only [ImageCacheManager.get, hget, htru, if_true,
    ImageCacheManager.updateAccessOrder, removeFirst_eq_erase]

theorem get_falsy (m : ImageCacheManager) (k : String)
    (hget : mapGet k m.cache = some "") : (m.get k).2 = m := by
  simp only [ImageCacheManager.get, hget, strTruthy]
  rfl

theorem get_none_id (m : ImageCacheManager) (k : String)
    (hget : mapGet k m.cache = none) : (m.get k).2 = m := by
  simp only [ImageCacheManager.get, hget]

theorem padKey_injective : Function.Injective padKey := by
  intro i j h
  have hd := congrArg String.data h
  simp only [padKey] at hd
  have := congrArg List.length hd
  simpa using this

theorem padKey_ne_empty (i : ℕ) (h : 0 < i) : padKey i ≠ "" := by
  intro he
  have hd := congrArg String.data he
  simp only [padKey] at hd
  have := congrArg List.length hd
  simp at this
  omega

theorem repKey_eq_padKey (i : ℕ) : repKey i = padKey (i + 1) := rfl

theorem repKey_injective : Function.Injective repKey := by
  intro i j h
  have h2 : padKey (i + 1) = padKey (j + 1) := by
    rw [← repKey_eq_padKey, ← repKey_eq_padKey]
    exact h
  have := padKey_injective h2
  omega

theorem repKey_ne_empty (i : ℕ) : repKey i ≠ "" := by
  rw [repKey_eq_padKey]
  exact padKey_ne_empty _ (Nat.succ_pos i)

theorem updateOrder_facts (ao : List String) (k : String)
    (hond : ao.Nodup) (hne : ∀ j ∈ ao, j ≠ "") (hk : k ≠ "") :
    (∀ j, j ∈ ao.erase k ++ [k] ↔ (j ∈ ao ∨ j = k)) ∧
    (ao.erase k ++ [k]).Nodup ∧
    (∀ j ∈ ao.erase k ++ [k], j ≠ "") := by
  refine ⟨?_, ?_, ?_⟩
  · intro j
    rw [List.mem_append, List.mem_singleton]
    constructor
    · rintro (hj | hj)
      · exact Or.inl (List.mem_of_mem_erase hj)
      · exact Or.inr hj
    · rintro (hj | hj)
      · by_cases hjk : j = k
        · exact Or.inr hjk
        · exact Or.inl ((List.mem_erase_of_ne hjk).2 hj)
      · exact Or.inr hj
  · rw [List.nodup_append]
    refine ⟨hond.erase k, List.nodup_singleton k, ?_⟩
    intro a ha hb
    rw [List.mem_singleton] at hb
    subst hb
    exact hond.not_mem_erase ha
  · intro j hj
    rcases List.mem_append.1 hj with hj | hj
    · exact hne j (List.mem_of_mem_erase hj)
    · rw [List.mem_singleton] at hj
      subst hj
      exact hk

theorem CacheInv_init : CacheInv imageCache := by
  refine ⟨rfl, ?_, ?_, ?_, ?_, ?_⟩ <;> simp [imageCache, mapKeys]

theorem CacheInv_get (m : ImageCacheManager) (k : String) (h : CacheInv m) :
    CacheInv (m.get k).2 := by
  obtain ⟨hms, hlen, hnd, hiff, hond, hne⟩ := h
  cases hget : mapGet k m.cache with
  | none =>
    rw [get_none_id m k hget]
    exact ⟨hms, hlen, hnd, hiff, hond, hne⟩
  | some v =>
    by_cases hv : v = ""
    · subst hv
      rw [get_falsy m k hget]
      exact ⟨hms, hlen, hnd, hiff, hond, hne⟩
    · rw [get_hit_refresh m k v hget hv]
      have hkmem : k ∈ mapKeys m.cache := by
        by_contra hc
        rw [mapGet_eq_none_of_not_mem k m.cache hc] at hget
        exact Option.noConfusion hget
      have hko : k ∈ m.accessOrder := (hiff k).1 hkmem
      obtain ⟨hmem2, hond2, hne2⟩ := updateOrder_facts m.accessOrder k hond hne (hne k hko)
      refine ⟨hms, hlen, hnd, ?_, hond2, hne2⟩
      intro j
      rw [hmem2 j, hiff j]
      constructor
      · exact fun hj => Or.inl hj
      · rintro (hj | hj)
        · exact hj
        · subst hj
          exact hko

theorem CacheInv_set (m : ImageCacheManager) (k v : String) (h : CacheInv m)
    (hk : k ≠ "") : CacheInv (m.set k v) := by
  obtain ⟨hms, hlen, hnd, hiff, hond, hne⟩ := h
  by_cases hhas : mapHas k m.cache = true
  · -- overwrite in place: no eviction, size unchanged
    have hkmem : k ∈ mapKeys m.cache := (mapHas_eq_true_iff k m.cache).1 hhas
    have hko : k ∈ m.accessOrder := (hiff k).1 hkmem
    rw [set_no_evict_eq m k v (Or.inr hhas)]
    obtain ⟨hmem2, hond2, hne2⟩ := updateOrder_facts m.accessOrder k hond hne hk
    have hkeys : mapKeys (mapSet k v m.cache) = mapKeys m.cache :=
      mapKeys_mapSet_of_has k v m.cache hhas
    refine ⟨hms, ?_, ?_, ?_, hond2, hne2⟩
    · simpa [length_mapSet_of_has k v m.cache hhas] using hlen
    · rw [hkeys]
      exact hnd
    · intro j
      rw [hkeys, hmem2 j, hiff j]
      constructor
      · exact fun hj => Or.inl hj
      · rintro (hj | hj)
        · exact hj
        · subst hj
          exact hko
  · have hknot : k ∉ mapKeys m.cache :=
      (mapHas_eq_false_iff k m.cache).1 (Bool.not_eq_true _ ▸ hhas)
    have hkord : k ∉ m.accessOrder := fun hc => hknot ((hiff k).2 hc)
    by_cases hfull : m.cache.length < m.maxSize
    · -- fresh key under capacity: plain append
      rw [set_no_evict_eq m k v (Or.inl hfull)]
      rw [List.erase_of_not_mem hkord]
      have hset : mapSet k v m.cache = m.cache ++ [(k, v)] :=
        mapSet_of_not_mem k v m.cache hknot
      refine ⟨hms, ?_, ?_, ?_, ?_, ?_⟩
      · simp only [hset, List.length_append, List.length_singleton]
        omega
      · rw [hset, mapKeys_append]
        rw [List.nodup_append]
        refine ⟨hnd, by simp [mapKeys], ?_⟩
        intro a ha hb
        simp [mapKeys] at hb
        subst hb
        exact hknot ha
      · intro j
        rw [hset, mapKeys_append, List.mem_append, List.mem_append, hiff j]
        simp [mapKeys]
      · rw [List.nodup_append]
        refine ⟨hond, List.nodup_singleton k, ?_⟩
        intro a ha hb
        rw [List.mem_singleton] at hb
        subst hb
        exact hkord ha
      · intro j hj
        rcases List.mem_append.1 hj with hj | hj
        · exact hne j hj
        · rw [List.mem_singleton] at hj
          subst hj
          exact hk
    · -- at capacity with a fresh key: evict the order head
      have hge : m.maxSize ≤ m.cache.length := le_of_not_lt hfull
      have hcne : m.cache ≠ [] := by
        intro hcnil
        rw [hcnil] at hge
        simp at hge
        omega
      have haone : m.accessOrder ≠ [] := by
        intro haonil
        obtain ⟨p, crest, hcc⟩ := List.exists_cons_of_ne_nil hcne
        have hpk : p.1 ∈ mapKeys m.cache := by
          rw [hcc]
          simp [mapKeys]
        have hpo := (hiff p.1).1 hpk
        rw [haonil] at hpo
        exact List.not_mem_nil _ hpo
      obtain ⟨oldest, restOrder, horder⟩ := List.exists_cons_of_ne_nil haone
      have holdmem : oldest ∈ m.accessOrder := by
        rw [horder]
        exact List.mem_cons_self _ _
      have hold : oldest ≠ "" := hne oldest holdmem
      have holdkey : oldest ∈ mapKeys m.cache := (hiff oldest).2 holdmem
      have hondc : restOrder.Nodup := by
        rw [horder] at hond
        exact hond.of_cons
      have holdnotrest : oldest ∉ restOrder := by
        rw [horder] at hond
        exact (List.nodup_cons.1 hond).1
      rw [set_evict_eq m k v oldest restOrder horder hge hknot hold]
      have hkrest : k ∉ restOrder := fun hc => hkord (horder ▸ List.mem_cons_of_mem _ hc)
      rw [List.erase_of_not_mem hkrest]
      have hkdel : k ∉ mapKeys (mapDelete oldest m.cache) := by
        rw [mapKeys_mapDelete]
        exact fun hc => hknot (List.mem_of_mem_erase hc)
      have hset : mapSet k v (mapDelete oldest m.cache) =
          mapDelete oldest m.cache ++ [(k, v)] :=
        mapSet_of_not_mem k v _ hkdel
      have hdellen : (mapDelete oldest m.cache).length + 1 = m.cache.length := by
        have h1 := congrArg List.length (mapKeys_mapDelete oldest m.cache)
        rw [List.length_erase_of_mem holdkey] at h1
        rw [length_mapKeys, length_mapKeys] at h1
        have h2 : 0 < m.cache.length := List.length_pos.mpr hcne
        omega
      refine ⟨hms, ?_, ?_, ?_, ?_, ?_⟩
      · simp only [hset, List.length_append, List.length_singleton]
        omega
      · rw [hset, mapKeys_append, List.nodup_append, mapKeys_mapDelete]
        refine ⟨hnd.erase oldest, by simp [mapKeys], ?_⟩
        intro a ha hb
        simp [mapKeys] at hb
        subst hb
        exact hkdel (by rw [mapKeys_mapDelete]; exact ha)
      · intro j
        have hsk : mapKeys [(k, v)] = [k] := rfl
        rw [hset, mapKeys_append, mapKeys_mapDelete, hsk]
        simp only [List.mem_append, List.mem_singleton, hnd.mem_erase_iff,
          hiff j, horder, List.mem_cons]
        constructor
        · rintro (⟨hne1, hj | hj⟩ | hj)
          · exact absurd hj hne1
          · exact Or.inl hj
          · exact Or.inr hj
        · rintro (hj | hj)
          · exact Or.inl ⟨fun he => holdnotrest (he ▸ hj), Or.inr hj⟩
          · exact Or.inr hj
      · rw [List.nodup_append]
        refine ⟨hondc, List.nodup_singleton k, ?_⟩
        intro a ha hb
        rw [List.mem_singleton] at hb
        subst hb
        exact hkrest ha
      · intro j hj
        rcases List.mem_append.1 hj with hj | hj
        · exact hne j (horder ▸ List.mem_cons_of_mem _ hj)
        · rw [List.mem_singleton] at hj
          subst hj
          exact hk

theorem CacheInv_clear (m : ImageCacheManager) (h : CacheInv m) :
    CacheInv m.clear := by
  obtain ⟨hms, -, -, -, -, -⟩ := h
  refine ⟨hms, ?_, ?_, ?_, ?_, ?_⟩ <;> simp [ImageCacheManager.clear, mapKeys]

theorem CacheInv_apply (m : ImageCacheManager) (op : CacheOp) (h : CacheInv m)
    (hop : ∀ k v, op = CacheOp.set k v → k ≠ "") :
    CacheInv (op.apply m) := by
  cases op with
  | get k => exact CacheInv_get m k h
  | set k v => exact CacheInv_set m k v h (hop k v rfl)
  | has k => exact h
  | clear => exact CacheInv_clear m h

theorem CacheInv_runOps (ops : List CacheOp)
    (hne : ∀ k v, CacheOp.set k v ∈ ops → k ≠ "") :
    CacheInv (runOps imageCache ops) := by
  suffices hgen : ∀ m, CacheInv m → CacheInv (runOps m ops) from
    hgen imageCache CacheInv_init
  induction ops with
  | nil => exact fun m h => h
  | cons op rest ih =>
    intro m h
    have h1 : CacheInv (op.apply m) :=
      CacheInv_apply m op h fun k v he =>
        hne k v (he ▸ List.mem_cons_self op rest)
    exact ih (fun k v hm => hne k v (List.mem_cons_of_mem _ hm)) (op.apply m) h1

theorem getSize_set_of_has (m : ImageCacheManager) (k v : String)
    (h : m.has k = true) : (m.set k v).getSize = m.getSize := by
  have hhas : mapHas k m.cache = true := h
  rw [set_no_evict_eq m k v (Or.inr hhas)]
  simp only [ImageCacheManager.getSize]
  exact length_mapSet_of_has k v m.cache hhas

/-- C5 amended: for every operation sequence from the empty cache in which
every key passed to `set` is a nonempty string, the number of stored keys
never exceeds `maxSize = 10000`, the access-order list holds each live key
exactly once, and a `set` on an already-present key does not change the
size. -/
theorem cache_invariants_amended (ops : List CacheOp)
    (hne : ∀ k v, CacheOp.set k v ∈ ops → k ≠ "") :
    (runOps imageCache ops).getSize ≤ 10000 ∧
    (∀ k, (runOps imageCache ops).has k = true →
      (runOps imageCache ops).accessOrder.count k = 1) ∧
    (∀ k v, (runOps imageCache ops).has k = true →
      ((runOps imageCache ops).set k v).getSize =
        (runOps imageCache ops).getSize) := by
  obtain ⟨hms, hlen, hnd, hiff, hond, hne2⟩ := CacheInv_runOps ops hne
  refine ⟨by rw [← hms]; exact hlen, ?_, ?_⟩
  · intro k hk
    have hkm : k ∈ mapKeys (runOps imageCache ops).cache :=
      (mapHas_eq_true_iff _ _).1 hk
    exact List.count_eq_one_of_mem hond ((hiff k).1 hkm)
  · intro k v hk
    exact getSize_set_of_has _ k v hk

theorem cache_invariants_amended_witness :
    (∀ k v, CacheOp.set k v ∈
        [CacheOp.set "a" "1", CacheOp.set "b" "2", CacheOp.get "a",
         CacheOp.set "c" "3"] → k ≠ "") ∧
    ((runOps imageCache
        [CacheOp.set "a" "1", CacheOp.set "b" "2", CacheOp.get "a",
         CacheOp.set "c" "3"]).getSize ≤ 10000 ∧
     (∀ k, (runOps imageCache
        [CacheOp.set "a" "1", CacheOp.set "b" "2", CacheOp.get "a",
         CacheOp.set "c" "3"]).has k = true →
       (runOps imageCache
        [CacheOp.set "a" "1", CacheOp.set "b" "2", CacheOp.get "a",
         CacheOp.set "c" "3"]).accessOrder.count k = 1) ∧
     (∀ k v, (runOps imageCache
        [CacheOp.set "a" "1", CacheOp.set "b" "2", CacheOp.get "a",
         CacheOp.set "c" "3"]).has k = true →
       ((runOps imageCache
        [CacheOp.set "a" "1", CacheOp.set "b" "2", CacheOp.get "a",
         CacheOp.set "c" "3"]).set k v).getSize =
         (runOps imageCache
        [CacheOp.set "a" "1", CacheOp.set "b" "2", CacheOp.get "a",
         CacheOp.set "c" "3"]).getSize)) :=
  ⟨by
    intro k v h
    simp at h
    rcases h with ⟨hk, -⟩ | ⟨hk, -⟩ | ⟨hk, -⟩ <;> subst hk <;> decide,
   cache_invariants_amended _ (by
    intro k v h
    simp at h
    rcases h with ⟨hk, -⟩ | ⟨hk, -⟩ | ⟨hk, -⟩ <;> subst hk <;> decide)⟩

theorem runOps_append (m : ImageCacheManager) (l1 l2 : List CacheOp) :
    runOps m (l1 ++ l2) = runOps (runOps m l1) l2 := by
  simp [runOps]

theorem runOps_single (m : ImageCacheManager) (op : CacheOp) :
    runOps m [op] = op.apply m := rfl

theorem mapKeys_pairs (n : ℕ) (kf vf : ℕ → String) :
    mapKeys ((List.range n).map fun i => (kf i, vf i)) = (List.range n).map kf := by
  simp only [mapKeys, List.map_map]
  rfl

theorem not_mem_map_range (n j : ℕ) (kf : ℕ → String)
    (hinj : ∀ i, i < n → kf i = kf j → i = j) (hj : n ≤ j) :
    kf j ∉ (List.range n).map kf := by
  intro hmem
  obtain ⟨i, hi, he⟩ := List.mem_map.1 hmem
  rw [List.mem_range] at hi
  have := hinj i hi he
  omega

theorem filledState_cache (kf vf : ℕ → String) (n : ℕ) :
    (filledState kf vf n).cache = (List.range n).map fun i => (kf i, vf i) := rfl

theorem filledState_maxSize (kf vf : ℕ → String) (n : ℕ) :
    (filledState kf vf n).maxSize = 10000 := rfl

theorem filledState_accessOrder (kf vf : ℕ → String) (n : ℕ) :
    (filledState kf vf n).accessOrder = (List.range n).map kf := rfl

theorem runOps_fill (n : ℕ) (kf vf : ℕ → String)
    (hinj : ∀ i j, i < n → j < n → kf i = kf j → i = j)
    (hn : n ≤ 10000) :
    runOps imageCache ((List.range n).map fun i => CacheOp.set (kf i) (vf i)) =
      filledState kf vf n := by
  simp only [filledState]
  induction n with
  | zero => rfl
  | succ n ih =>
    have hinj2 : ∀ i j, i < n → j < n → kf i = kf j → i = j := fun i j hi hj =>
      hinj i j (by omega) (by omega)
    have hstep := ih hinj2 (by omega)
    rw [List.range_succ, List.map_append, runOps_append, hstep, List.map_singleton,
      runOps_single]
    show ImageCacheManager.set _ (kf n) (vf n) = _
    have hnot : kf n ∉ (List.range n).map kf :=
      not_mem_map_range n n kf (fun i hi he => hinj i n (by omega) (by omega) he)
        (le_refl n)
    have hlt : ((List.range n).map fun i => (kf i, vf i)).length < 10000 := by
      simp only [List.length_map, List.length_range]
      omega
    rw [set_no_evict_eq _ (kf n) (vf n) (Or.inl hlt)]
    have hknm : kf n ∉ mapKeys ((List.range n).map fun i => (kf i, vf i)) := by
      rw [mapKeys_pairs]
      exact hnot
    rw [show mapSet (kf n) (vf n) ((List.range n).map fun i => (kf i, vf i)) =
        ((List.range n).map fun i => (kf i, vf i)) ++ [(kf n, vf n)] from
      mapSet_of_not_mem _ _ _ hknm]
    rw [show ((List.range n).map kf).erase (kf n) = (List.range n).map kf from
      List.erase_of_not_mem hnot]
    simp [List.range_succ]

theorem maxSize_set (m : ImageCacheManager) (k v : String) :
    (m.set k v).maxSize = m.maxSize := by
  simp only [ImageCacheManager.set, ImageCacheManager.updateAccessOrder]
  by_cases h : m.cache.length ≥ m.maxSize ∧ ¬ mapHas k m.cache = true
  · rw [if_pos h]
    cases ho : m.accessOrder with
    | nil => rfl
    | cons oldest rest =>
      by_cases ht : strTruthy oldest = true
      · simp only [ht, if_true]
      · simp only [ht, if_false]
        rfl
  · rw [if_neg h]

/-- C5 counterexample: with the (falsy) empty string as the first key,
filling the cache to capacity and inserting one more key leaves 10001 stored
entries while `maxSize` is 10000: `set` shifts `""` off the access order but
`if (oldestKey)` skips the `delete`, so nothing is evicted. -/
theorem cache_overflow_cex :
    (runOps imageCache
      (((List.range 10000).map fun i => CacheOp.set (padKey i) "v") ++
        [CacheOp.set (padKey 10000) "v"])).getSize = 10001 ∧
    (runOps imageCache
      (((List.range 10000).map fun i => CacheOp.set (padKey i) "v") ++
        [CacheOp.set (padKey 10000) "v"])).maxSize = 10000 := by
  have hinj : ∀ i j, i < 10000 → j < 10000 → padKey i = padKey j → i = j :=
    fun i j _ _ h => padKey_injective h
  have hfill := runOps_fill 10000 padKey (fun _ => "v") hinj (le_refl _)
  rw [runOps_append]
  rw [hfill]
  rw [runOps_single]
  simp only [CacheOp.apply]
  have hcomp : (padKey ∘ Nat.succ) = (fun i => padKey (i + 1)) := by
    funext i
    rfl
  have horder : (filledState padKey (fun _ => "v") 10000).accessOrder =
      "" :: ((List.range 9999).map fun i => padKey (i + 1)) := by
    rw [filledState_accessOrder, show (10000:ℕ) = 9999 + 1 from rfl,
      List.range_succ_eq_map, List.map_cons, List.map_map, hcomp,
      show padKey 0 = "" from rfl]
  have hknot : padKey 10000 ∉
      mapKeys (filledState padKey (fun _ => "v") 10000).cache := by
    rw [filledState_cache, mapKeys_pairs]
    exact not_mem_map_range 10000 10000 padKey
      (fun i _ h => padKey_injective h) (le_refl _)
  have hge : (filledState padKey (fun _ => "v") 10000).maxSize ≤
      (filledState padKey (fun _ => "v") 10000).cache.length := by
    rw [filledState_cache, filledState_maxSize]
    simp
  have hknot2 : padKey 10000 ∉
      mapKeys ((List.range 10000).map fun i => (padKey i, "v")) := by
    rw [← filledState_cache padKey (fun _ => "v") 10000]
    exact hknot
  constructor
  · rw [set_evict_falsy_eq (filledState padKey (fun _ => "v") 10000)
      (padKey 10000) "v" _ horder hge hknot]
    simp only [ImageCacheManager.getSize]
    rw [filledState_cache]
    rw [mapSet_of_not_mem _ _ _ hknot2]
    simp
  · rw [maxSize_set, filledState_maxSize]

theorem evictedState_cache (kf vf : ℕ → String) :
    (evictedState kf vf).cache =
      ((List.range 9999).map fun i => (kf (i + 1), vf (i + 1))) ++
        [(kf 10000, vf 10000)] := rfl

theorem evictedState_accessOrder (kf vf : ℕ → String) :
    (evictedState kf vf).accessOrder =
      ((List.range 9999).map fun i => kf (i + 1)) ++ [kf 10000] := rfl

theorem nodup_map_range (n : ℕ) (f : ℕ → String)
    (hinj : ∀ i j, i < n → j < n → f i = f j → i = j) :
    ((List.range n).map f).Nodup := by
  refine List.Nodup.map_on ?_ (List.nodup_range n)
  intro x hx y hy hxy
  rw [List.mem_range] at hx hy
  exact hinj x y hx hy hxy

theorem mapKeys_evicted (kf vf : ℕ → String) :
    mapKeys (evictedState kf vf).cache =
      ((List.range 9999).map fun i => kf (i + 1)) ++ [kf 10000] := by
  rw [evictedState_cache, mapKeys_append]
  rw [show mapKeys ((List.range 9999).map fun i => (kf (i + 1), vf (i + 1))) =
      (List.range 9999).map fun i => kf (i + 1) from by
    simp only [mapKeys, List.map_map]
    rw [show (Prod.fst ∘ fun i => (kf (i + 1), vf (i + 1))) =
      (fun i : ℕ => kf (i + 1)) from funext fun i => rfl]]
  rfl

theorem lruPhase1_eq (kf vf : ℕ → String)
    (hinj : ∀ i j, i < 10001 → j < 10001 → kf i = kf j → i = j)
    (hk0 : kf 0 ≠ "") :
    lruPhase1 kf vf = evictedState kf vf := by
  have hinj10 : ∀ i j, i < 10000 → j < 10000 → kf i = kf j → i = j :=
    fun i j hi hj => hinj i j (by omega) (by omega)
  have hfill := runOps_fill 10000 kf vf hinj10 (le_refl _)
  have hcomp : (kf ∘ Nat.succ) = (fun i => kf (i + 1)) := funext fun i => rfl
  have hcompP : ((fun i => (kf i, vf i)) ∘ Nat.succ) =
      (fun i => (kf (i + 1), vf (i + 1))) := funext fun i => rfl
  have hsplitK : (List.range 10000).map kf =
      kf 0 :: ((List.range 9999).map fun i => kf (i + 1)) := by
    rw [show (10000:ℕ) = 9999 + 1 from rfl, List.range_succ_eq_map,
      List.map_cons, List.map_map, hcomp]
  have hsplitP : (List.range 10000).map (fun i => (kf i, vf i)) =
      (kf 0, vf 0) :: ((List.range 9999).map fun i => (kf (i + 1), vf (i + 1))) := by
    rw [show (10000:ℕ) = 9999 + 1 from rfl, List.range_succ_eq_map,
      List.map_cons, List.map_map, hcompP]
  have horder : (filledState kf vf 10000).accessOrder =
      kf 0 :: ((List.range 9999).map fun i => kf (i + 1)) := by
    rw [filledState_accessOrder, hsplitK]
  have hknot : kf 10000 ∉ mapKeys (filledState kf vf 10000).cache := by
    rw [filledState_cache, mapKeys_pairs]
    exact not_mem_map_range 10000 10000 kf
      (fun i hi h => hinj i 10000 (by omega) (by omega) h) (le_refl _)
  have hge : (filledState kf vf 10000).maxSize ≤
      (filledState kf vf 10000).cache.length := by
    rw [filledState_cache, filledState_maxSize]
    simp
  have hnm : kf 10000 ∉ (List.range 9999).map fun i => kf (i + 1) := by
    intro hmem
    obtain ⟨i, hi, he⟩ := List.mem_map.1 hmem
    rw [List.mem_range] at hi
    have := hinj (i + 1) 10000 (by omega) (by omega) he
    omega
  unfold lruPhase1
  rw [show (10001:ℕ) = 10000 + 1 from rfl, List.range_succ, List.map_append,
    runOps_append, hfill, List.map_singleton, runOps_single]
  simp only [CacheOp.apply]
  rw [set_evict_eq (filledState kf vf 10000) (kf 10000) (vf 10000) (kf 0) _
    horder hge hknot hk0]
  simp only [filledState, evictedState, ImageCacheManager.mk.injEq]
  refine ⟨?_, trivial, ?_⟩
  · rw [hsplitP]
    rw [show mapDelete (kf 0) ((kf 0, vf 0) ::
        ((List.range 9999).map fun i => (kf (i + 1), vf (i + 1)))) =
      (List.range 9999).map fun i => (kf (i + 1), vf (i + 1)) from by
        simp [mapDelete]]
    rw [mapSet_of_not_mem _ _ _ (by
      rw [show mapKeys ((List.range 9999).map fun i => (kf (i + 1), vf (i + 1))) =
          (List.range 9999).map fun i => kf (i + 1) from by
        simp only [mapKeys, List.map_map]
        rw [show (Prod.fst ∘ fun i => (kf (i + 1), vf (i + 1))) =
          (fun i : ℕ => kf (i + 1)) from funext fun i => rfl]]
      exact hnm)]
  · rw [List.erase_of_not_mem hnm]

theorem has_set_evict_iff (m : ImageCacheManager) (k v oldest : String)
    (restOrder : List String)
    (horder : m.accessOrder = oldest :: restOrder)
    (hlen : m.maxSize ≤ m.cache.length) (hk : k ∉ mapKeys m.cache)
    (hold : oldest ≠ "") (hnd : (mapKeys m.cache).Nodup) (j : String) :
    (m.set k v).has j = true ↔ (j = k ∨ (j ≠ oldest ∧ j ∈ mapKeys m.cache)) := by
  rw [set_evict_eq m k v oldest restOrder horder hlen hk hold]
  have hkdel : k ∉ mapKeys (mapDelete oldest m.cache) := by
    rw [mapKeys_mapDelete]
    exact fun hc => hk (List.mem_of_mem_erase hc)
  simp only [ImageCacheManager.has]
  rw [mapHas_eq_true_iff, mapSet_of_not_mem _ _ _ hkdel, mapKeys_append,
    mapKeys_mapDelete, List.mem_append, hnd.mem_erase_iff]
  rw [show mapKeys [(k, v)] = [k] from rfl, List.mem_singleton]
  tauto

theorem cacheGet_cache (m : ImageCacheManager) (k : String) :
    ((m.get k).2).cache = m.cache := by
  simp only [ImageCacheManager.get]
  cases hget : mapGet k m.cache with
  | none => rfl
  | some v =>
    by_cases ht : strTruthy v = true
    · simp only [ht, if_true, ImageCacheManager.updateAccessOrder]
    · simp only [ht, Bool.false_eq_true, if_false]

theorem evicted_keys_nodup (kf vf : ℕ → String)
    (hinj : ∀ i j, i < 10001 → j < 10001 → kf i = kf j → i = j) :
    (mapKeys (evictedState kf vf).cache).Nodup := by
  rw [mapKeys_evicted]
  rw [List.nodup_append]
  refine ⟨?_, List.nodup_singleton _, ?_⟩
  · exact nodup_map_range 9999 _
      (fun i j hi hj h => by
        have := hinj (i + 1) (j + 1) (by omega) (by omega) h
        omega)
  · intro a ha hb
    rw [List.mem_singleton] at hb
    subst hb
    obtain ⟨i, hi, he⟩ := List.mem_map.1 ha
    rw [List.mem_range] at hi
    have := hinj (i + 1) 10000 (by omega) (by omega) he
    omega

theorem evicted_cache_length (kf vf : ℕ → String) :
    (evictedState kf vf).cache.length = 10000 := by
  rw [evictedState_cache]
  simp

theorem mem_evicted_keys (kf vf : ℕ → String) (i : ℕ) (h1 : 1 ≤ i)
    (h2 : i ≤ 10000) : kf i ∈ mapKeys (evictedState kf vf).cache := by
  rw [mapKeys_evicted]
  by_cases hle : i ≤ 9999
  · refine List.mem_append_left _ (List.mem_map.2 ⟨i - 1, ?_, ?_⟩)
    · rw [List.mem_range]
      omega
    · rw [show i - 1 + 1 = i from by omega]
  · rw [show i = 10000 from by omega]
    exact List.mem_append_right _ (List.mem_singleton.2 rfl)

theorem not_mem_evicted_keys (kf vf : ℕ → String) (j : ℕ)
    (hinj : ∀ i l, i < 10002 → l < 10002 → kf i = kf l → i = l)
    (hj : j < 10002) (hj0 : j = 0 ∨ j = 10001) :
    kf j ∉ mapKeys (evictedState kf vf).cache := by
  rw [mapKeys_evicted]
  intro hmem
  rcases List.mem_append.1 hmem with h | h
  · obtain ⟨i, hi, he⟩ := List.mem_map.1 h
    rw [List.mem_range] at hi
    have := hinj (i + 1) j (by omega) (by omega) he
    omega
  · rw [List.mem_singleton] at h
    have := hinj j 10000 (by omega) (by omega) h
    omega

/-- C4 helper: the state after the first 10001 inserts lacks `kf 0` and has
every later key. -/
theorem lru_phase1_has (kf vf : ℕ → String)
    (hinj : ∀ i j, i < 10002 → j < 10002 → kf i = kf j → i = j)
    (hk0 : kf 0 ≠ "") :
    (lruPhase1 kf vf).has (kf 0) = false ∧
    ∀ i, 1 ≤ i → i ≤ 10000 → (lruPhase1 kf vf).has (kf i) = true := by
  have hinj1 : ∀ i j, i < 10001 → j < 10001 → kf i = kf j → i = j :=
    fun i j hi hj => hinj i j (by omega) (by omega)
  rw [lruPhase1_eq kf vf hinj1 hk0]
  constructor
  · simp only [ImageCacheManager.has]
    rw [mapHas_eq_false_iff]
    exact not_mem_evicted_keys kf vf 0 hinj (by omega) (Or.inl rfl)
  · intro i h1 h2
    simp only [ImageCacheManager.has]
    rw [mapHas_eq_true_iff]
    exact mem_evicted_keys kf vf i h1 h2

/-- C4 helper: phase 2 with a truthy value at `kf 1`: the `get` refreshes
`kf 1`, so the next insert evicts `kf 2` and keeps `kf 1`. -/
theorem lru_phase2_has (kf vf : ℕ → String)
    (hinj : ∀ i j, i < 10002 → j < 10002 → kf i = kf j → i = j)
    (hk0 : kf 0 ≠ "") (hk2 : kf 2 ≠ "") (hv1 : vf 1 ≠ "") :
    (lruPhase2 kf vf).has (kf 2) = false ∧
    (lruPhase2 kf vf).has (kf 1) = true := by
  have hinj1 : ∀ i j, i < 10001 → j < 10001 → kf i = kf j → i = j :=
    fun i j hi hj => hinj i j (by omega) (by omega)
  unfold lruPhase2
  rw [lruPhase1_eq kf vf hinj1 hk0]
  have hsplitP : (evictedState kf vf).cache =
      (kf 1, vf 1) :: (((List.range 9998).map fun i => (kf (i + 2), vf (i + 2))) ++
        [(kf 10000, vf 10000)]) := by
    rw [evictedState_cache]
    rw [show (9999:ℕ) = 9998 + 1 from rfl, List.range_succ_eq_map, List.map_cons,
      List.map_map,
      show ((fun i => (kf (i + 1), vf (i + 1))) ∘ Nat.succ) =
        (fun i => (kf (i + 2), vf (i + 2))) from funext fun i => rfl,
      List.cons_append]
  have hget : mapGet (kf 1) (evictedState kf vf).cache = some (vf 1) := by
    rw [hsplitP]
    simp [mapGet]
  rw [get_hit_refresh _ _ _ hget hv1]
  have hordersplit : (evictedState kf vf).accessOrder =
      kf 1 :: (((List.range 9998).map fun i => kf (i + 2)) ++ [kf 10000]) := by
    rw [evictedState_accessOrder]
    rw [show (9999:ℕ) = 9998 + 1 from rfl, List.range_succ_eq_map, List.map_cons,
      List.map_map,
      show ((fun i => kf (i + 1)) ∘ Nat.succ) = (fun i => kf (i + 2)) from
        funext fun i => rfl,
      List.cons_append]
  have horder2 : (evictedState kf vf).accessOrder.erase (kf 1) ++ [kf 1] =
      kf 2 :: ((((List.range 9997).map fun i => kf (i + 3)) ++ [kf 10000]) ++
        [kf 1]) := by
    rw [hordersplit, List.erase_cons_head]
    rw [show ((List.range 9998).map fun i => kf (i + 2)) =
        kf 2 :: ((List.range 9997).map fun i => kf (i + 3)) from by
      rw [show (9998:ℕ) = 9997 + 1 from rfl, List.range_succ_eq_map, List.map_cons,
        List.map_map,
        show ((fun i => kf (i + 2)) ∘ Nat.succ) = (fun i => kf (i + 3)) from
          funext fun i => rfl]]
    rw [List.cons_append, List.cons_append]
  rw [horder2]
  generalize ((((List.range 9997).map fun i => kf (i + 3)) ++ [kf 10000]) ++
    [kf 1] : List String) = br
  have hstate_order : ({ evictedState kf vf with
      accessOrder := kf 2 :: br } : ImageCacheManager).accessOrder =
      kf 2 :: br := rfl
  have hlen2 : ({ evictedState kf vf with
      accessOrder := kf 2 :: br } : ImageCacheManager).maxSize ≤
      ({ evictedState kf vf with
        accessOrder := kf 2 :: br } : ImageCacheManager).cache.length := by
    show (10000:ℕ) ≤ (evictedState kf vf).cache.length
    rw [evicted_cache_length]
  have hknot2 : kf 10001 ∉ mapKeys ({ evictedState kf vf with
      accessOrder := kf 2 :: br } : ImageCacheManager).cache := by
    show kf 10001 ∉ mapKeys (evictedState kf vf).cache
    exact not_mem_evicted_keys kf vf 10001 hinj (by omega) (Or.inr rfl)
  have hnd2 : (mapKeys ({ evictedState kf vf with
      accessOrder := kf 2 :: br } : ImageCacheManager).cache).Nodup := by
    show (mapKeys (evictedState kf vf).cache).Nodup
    exact evicted_keys_nodup kf vf hinj1
  constructor
  · have hiff := has_set_evict_iff _ (kf 10001) (vf 10001) (kf 2) br
      hstate_order hlen2 hknot2 hk2 hnd2 (kf 2)
    rw [← Bool.not_eq_true]
    intro hc
    rcases hiff.1 hc with h | h
    · have := hinj 2 10001 (by omega) (by omega) h
      omega
    · exact h.1 rfl
  · have hiff := has_set_evict_iff _ (kf 10001) (vf 10001) (kf 2) br
      hstate_order hlen2 hknot2 hk2 hnd2 (kf 1)
    refine hiff.2 (Or.inr ⟨?_, ?_⟩)
    · intro he
      have := hinj 1 2 (by omega) (by omega) he
      omega
    · show kf 1 ∈ mapKeys (evictedState kf vf).cache
      exact mem_evicted_keys kf vf 1 (by omega) (by omega)

/-- C4 amended: the LRU round trip holds for pairwise-distinct keys and
values provided `k1`, `k3` and the value stored at `k2` are nonempty strings
(JS truthiness: `get` skips the refresh for a falsy value, and `set` skips
the delete for a falsy evicted key).  Inserting `kf 0 .. kf 10000` evicts
exactly `kf 0`; after `get (kf 1)` and inserting `kf 10001`, `kf 2` is
evicted and `kf 1` is retained. -/
theorem lru_round_trip_amended (kf vf : ℕ → String)
    (hinj : ∀ i j, i < 10002 → j < 10002 → kf i = kf j → i = j)
    (hk0 : kf 0 ≠ "") (hk2 : kf 2 ≠ "") (hv1 : vf 1 ≠ "") :
    ((lruPhase1 kf vf).has (kf 0) = false ∧
     ∀ i, 1 ≤ i → i ≤ 10000 → (lruPhase1 kf vf).has (kf i) = true) ∧
    ((lruPhase2 kf vf).has (kf 2) = false ∧
     (lruPhase2 kf vf).has (kf 1) = true) :=
  ⟨lru_phase1_has kf vf hinj hk0, lru_phase2_has kf vf hinj hk0 hk2 hv1⟩

theorem lru_round_trip_amended_witness :
    ((∀ i j, i < 10002 → j < 10002 → repKey i = repKey j → i = j) ∧
     repKey 0 ≠ "" ∧ repKey 2 ≠ "" ∧ (fun _ : ℕ => "x") 1 ≠ "") ∧
    (((lruPhase1 repKey fun _ => "x").has (repKey 0) = false ∧
      ∀ i, 1 ≤ i → i ≤ 10000 →
        (lruPhase1 repKey fun _ => "x").has (repKey i) = true) ∧
     ((lruPhase2 repKey fun _ => "x").has (repKey 2) = false ∧
      (lruPhase2 repKey fun _ => "x").has (repKey 1) = true)) :=
  ⟨⟨fun i j _ _ h => repKey_injective h, repKey_ne_empty 0, repKey_ne_empty 2,
    by decide⟩,
   lru_round_trip_amended repKey (fun _ => "x")
     (fun i j _ _ h => repKey_injective h) (repKey_ne_empty 0)
     (repKey_ne_empty 2) (by decide)⟩

/-- C4 counterexample: with the empty string stored as the value of `k2`
(`repKey 1`), the `get` on `k2` returns a falsy value and does not refresh
the access order, so the next insert evicts `k2` itself — `has k2` is
`false` and `k3` (`repKey 2`) is still present, refuting the claim for
arbitrary string values. -/
theorem lru_get_falsy_cex :
    (lruPhase2 repKey fun i => if i = 1 then "" else "x").has (repKey 1) = false ∧
    (lruPhase2 repKey fun i => if i = 1 then "" else "x").has (repKey 2) = true := by
  have hinj : ∀ i j, i < 10002 → j < 10002 → repKey i = repKey j → i = j :=
    fun i j _ _ h => repKey_injective h
  have hinj1 : ∀ i j, i < 10001 → j < 10001 → repKey i = repKey j → i = j :=
    fun i j hi hj => hinj i j (by omega) (by omega)
  unfold lruPhase2
  rw [lruPhase1_eq repKey (fun i => if i = 1 then "" else "x") hinj1
    (repKey_ne_empty 0)]
  have hsplitP : (evictedState repKey fun i => if i = 1 then "" else "x").cache =
      (repKey 1, "") ::
        (((List.range 9998).map fun i =>
          (repKey (i + 2), if i + 2 = 1 then "" else "x")) ++
          [(repKey 10000, "x")]) := by
    rw [evictedState_cache]
    rw [show (9999:ℕ) = 9998 + 1 from rfl, List.range_succ_eq_map, List.map_cons,
      List.map_map,
      show ((fun i => (repKey (i + 1),
          if i + 1 = 1 then "" else ("x":String))) ∘ Nat.succ) =
        (fun i => (repKey (i + 2), if i + 2 = 1 then "" else "x")) from
        funext fun i => rfl]
    rw [List.cons_append]
    norm_num
  have hget : mapGet (repKey 1)
      (evictedState repKey fun i => if i = 1 then "" else "x").cache =
      some "" := by
    rw [hsplitP]
    simp [mapGet]
  rw [get_falsy _ _ hget]
  have hordersplit :
      (evictedState repKey fun i => if i = 1 then "" else "x").accessOrder =
      repKey 1 :: (((List.range 9998).map fun i => repKey (i + 2)) ++
        [repKey 10000]) := by
    rw [evictedState_accessOrder]
    rw [show (9999:ℕ) = 9998 + 1 from rfl, List.range_succ_eq_map, List.map_cons,
      List.map_map,
      show ((fun i => repKey (i + 1)) ∘ Nat.succ) = (fun i => repKey (i + 2)) from
        funext fun i => rfl,
      List.cons_append]
  have hlen2 : (evictedState repKey fun i => if i = 1 then "" else "x").maxSize ≤
      (evictedState repKey fun i => if i = 1 then "" else "x").cache.length := by
    show (10000:ℕ) ≤ _
    rw [evicted_cache_length]
  have hknot2 : repKey 10001 ∉
      mapKeys (evictedState repKey fun i => if i = 1 then "" else "x").cache :=
    not_mem_evicted_keys repKey _ 10001 hinj (by omega) (Or.inr rfl)
  have hnd2 : (mapKeys
      (evictedState repKey fun i => if i = 1 then "" else "x").cache).Nodup :=
    evicted_keys_nodup repKey _ hinj1
  constructor
  · have hiff := has_set_evict_iff _ (repKey 10001) "x" (repKey 1) _
      hordersplit hlen2 hknot2 (repKey_ne_empty 1) hnd2 (repKey 1)
    rw [← Bool.not_eq_true]
    intro hc
    rcases hiff.1 hc with h | h
    · have := hinj 1 10001 (by omega) (by omega) h
      omega
    · exact h.1 rfl
  · have hiff := has_set_evict_iff _ (repKey 10001) "x" (repKey 1) _
      hordersplit hlen2 hknot2 (repKey_ne_empty 1) hnd2 (repKey 2)
    refine hiff.2 (Or.inr ⟨?_, ?_⟩)
    · intro he
      have := hinj 2 1 (by omega) (by omega) he
      omega
    · exact mem_evicted_keys repKey _ 2 (by omega) (by omega)
